import Mathlib

/-!
Shallow embedding of `narzedziownik_app` (a QGIS plugin) for verification.

Covered source files:
* `src/narzedziownik_app/features/recount.py` — identifier renumbering:
  numeric extraction from the `oznaczenie` field, gap detection, reindex
  mapping, and rewriting of `oznaczenie` / `lokalnyId`.
* `src/narzedziownik_app/features/create_template_pog.py` — template layer
  materialization: geometry-type qualifier stripping and memory-layer
  construction.

Python strings are embedded as `String` / `List Char`; Python `set[int]` as
`Finset Nat`; Python dicts as association lists (`List (κ × ν)`, built in the
same order as the source builds the dict, looked up with `List.lookup`);
`None`-able values as `Option`.  Host (QGIS/Qt) objects are reduced to the
data the functions actually read: a layer is its field-name list plus its
features, a feature is its id and the two attribute values used.
-/

set_option maxRecDepth 4000

namespace Recount

/-- A feature of the active layer, reduced to what `recount.py` reads:
the feature id and the values of the `oznaczenie` and `lokalnyId` fields.
`none` models a NULL attribute value. -/
structure Feature where
  fid : Nat
  ozn : Option String
  lok : Option String
deriving DecidableEq, Repr

/-- The per-feature record built by `_collect_numbers_from_oznaczenie`
(keys `raw` / `num` / the part before the digits / the part after). -/
structure OznInfo where
  raw : String
  num : Option Nat
  pre : String
  suf : String
deriving DecidableEq, Repr

/-- Python `str.strip` whitespace predicate (ASCII whitespace). -/
def isStripChar (c : Char) : Bool :=
  c = ' ' || c = '\t' || c = '\n' || c = '\r' || c = '\x0b' || c = '\x0c'

/-- Python `str.strip()`: remove leading and trailing whitespace. -/
def stripChars (l : List Char) : List Char :=
  ((l.dropWhile isStripChar).reverse.dropWhile isStripChar).reverse

/-- Semantics of `re.search(r'(\d+)', text)`: the first maximal run of decimal
digits, together with the text before it and the text after it; `none` when
the text has no digit. -/
def extractNumber : List Char → Option (List Char × List Char × List Char)
  | [] => none
  | c :: rest =>
    if c.isDigit then
      some ([], (c :: rest).takeWhile Char.isDigit, (c :: rest).dropWhile Char.isDigit)
    else
      match extractNumber rest with
      | none => none
      | some (p, d, s) => some (c :: p, d, s)

/-- `int` applied to a run of decimal digit characters. -/
def digitsToNat (l : List Char) : Nat :=
  l.foldl (fun acc c => acc * 10 + (c.toNat - 48)) 0

/-- The loop body of `_collect_numbers_from_oznaczenie` for one feature:
strip the raw value (`""` for NULL), search for the first digit run, and
record number / part before / part after when one is found. -/
def collectInfo (val : Option String) : OznInfo :=
  let text := String.mk (stripChars (val.getD "").toList)
  match extractNumber text.toList with
  | none => { raw := text, num := none, pre := "", suf := "" }
  | some (p, d, s) =>
    { raw := text, num := some (digitsToNat d), pre := String.mk p, suf := String.mk s }

/-- `_collect_numbers_from_oznaczenie`: the fid-keyed dict of extraction
records, one per feature, in feature order. -/
def _collect_numbers_from_oznaczenie (features : List Feature) : List (Nat × OznInfo) :=
  features.map fun f => (f.fid, collectInfo f.ozn)

/-- `_compute_missing_numbers`: for an empty set return `[]`; otherwise list,
in ascending order, the numbers in `1..max nums` that are not in `nums`. -/
def _compute_missing_numbers (nums : Finset Nat) : List Nat :=
  match nums.max with
  | none => []
  | some e => (List.range' 1 e).filter fun n => decide (n ∉ nums)

/-- `_build_reindex_mapping`: the dict `{old : i + 1 for i, old in
enumerate(sorted(nums))}` as an association list in insertion order. -/
def _build_reindex_mapping (nums : Finset Nat) : List (Nat × Nat) :=
  ((nums.sort (· ≤ ·)).enum).map fun p => (p.2, p.1 + 1)

/-- The new number the reindex mapping assigns to `v` (`0` as a dummy for
keys outside the mapping, which the source never queries). -/
def reindex (nums : Finset Nat) (v : Nat) : Nat :=
  ((_build_reindex_mapping nums).lookup v).getD 0

/-- The f-string `f"{info['prefix']}{new_num}{info['suffix']}"` building the
new `oznaczenie` value. -/
def rewriteOznaczenie (info : OznInfo) (newNum : Nat) : String :=
  info.pre ++ toString newNum ++ info.suf

/-- The character class `[^-\n\r]` of the `lokalnyId` pattern. -/
def lokalnyOk (c : Char) : Bool :=
  !(c = '-' || c = '\n' || c = '\r')

/-- Semantics of `re.match(r"^([^-\n\r]+-)(\d+)(.*)$", t)` on a stripped
text `t`: group 1 is a non-empty hyphen-free, newline-free run up to and
including the first `-`; group 2 the non-empty digit run after it; group 3
the rest, which may not contain a newline (`.` does not match `\n` and a
stripped text cannot end in `\n`, so a newline after the digits kills the
match). -/
def matchLokalny (t : List Char) : Option (List Char × List Char × List Char) :=
  let p := t.takeWhile lokalnyOk
  match t.dropWhile lokalnyOk with
  | [] => none
  | c :: rest =>
    if p = [] then none
    else if c ≠ '-' then none
    else
      let d := rest.takeWhile Char.isDigit
      let s := rest.dropWhile Char.isDigit
      if d = [] then none
      else if s.contains '\n' then none
      else some (p ++ ['-'], d, s)

/-- Lines 139–148 of `recount.py` for one non-NULL `lokalnyId` value:
strip it, match the `prefix-digits-suffix` pattern, and either rebuild the
value with the new number or leave the original value untouched. -/
def updateLokalnyId (lokVal : String) (newNum : Nat) : String :=
  match matchLokalny (stripChars lokVal.toList) with
  | none => lokVal
  | some (g1, _, g3) => String.mk g1 ++ toString newNum ++ String.mk g3

/-- The loop body of `_update_oznaczenie_and_lokalnyId` for one feature:
skip when the dict has no record for the feature, when no number was
extracted, or when the number is not a key of the mapping; otherwise write
the rebuilt `oznaczenie` and, when the `lokalnyId` pattern matches, the
rebuilt `lokalnyId`. -/
def updateFeature (mapping : List (Nat × Nat)) (info? : Option OznInfo) (f : Feature) : Feature :=
  match info? with
  | none => f
  | some info =>
    match info.num with
    | none => f
    | some oldNum =>
      match mapping.lookup oldNum with
      | none => f
      | some newNum =>
        let f1 : Feature := { f with ozn := some (rewriteOznaczenie info newNum) }
        match matchLokalny (stripChars (f.lok.getD "").toList) with
        | none => f1
        | some (g1, _, g3) =>
          { f1 with lok := some (String.mk g1 ++ toString newNum ++ String.mk g3) }

/-- `_update_oznaczenie_and_lokalnyId`: one editing pass over the features. -/
def _update_oznaczenie_and_lokalnyId (features : List Feature)
    (oznaczeniaInfo : List (Nat × OznInfo)) (mapping : List (Nat × Nat)) : List Feature :=
  features.map fun f => updateFeature mapping (oznaczeniaInfo.lookup f.fid) f

/-- `_find_lokalny_field`: the first of `lokalnyId`, `loklaneId` present in
the layer's field names. -/
def _find_lokalny_field (fieldNames : List String) : Option String :=
  if "lokalnyId" ∈ fieldNames then some "lokalnyId"
  else if "loklaneId" ∈ fieldNames then some "loklaneId"
  else none

/-- The active layer as `run` sees it: its schema's field names and its
features. -/
structure Layer where
  fields : List String
  features : List Feature
deriving DecidableEq, Repr

/-- The observable outcome of one invocation of `run`, carrying the layer's
feature list after the invocation (unchanged on every abort path). -/
inductive RunOutcome where
  | missingOznaczenie (features : List Feature)
  | missingLokalny (features : List Feature)
  | noNumbers (features : List Feature)
  | noGaps (features : List Feature)
  | declined (features : List Feature)
  | updated (missing : List Nat) (features : List Feature)
deriving DecidableEq, Repr

/-- `run` of `recount.py` on a vector layer: field checks, number
collection, gap analysis, confirmation, and the rewrite pass.  `confirm` is
the user's answer to the yes/no dialog. -/
def run (layer : Layer) (confirm : Bool) : RunOutcome :=
  if "oznaczenie" ∈ layer.fields then
    match _find_lokalny_field layer.fields with
    | none => .missingLokalny layer.features
    | some _ =>
      let info := _collect_numbers_from_oznaczenie layer.features
      let nums := (info.filterMap fun p => p.2.num).toFinset
      if nums = ∅ then .noNumbers layer.features
      else
        let missing := _compute_missing_numbers nums
        if missing = [] then .noGaps layer.features
        else if confirm then
          .updated missing
            (_update_oznaczenie_and_lokalnyId layer.features info (_build_reindex_mapping nums))
        else .declined layer.features
  else .missingOznaczenie layer.features

end Recount

namespace CreateTemplate

/-- A template (reference) vector layer as `_create_memory_layer_from_template`
reads it: geometry-type display string, layer name, attribute fields as
(name, type) pairs. -/
structure TemplateLayer where
  geomDisplay : String
  name : String
  fields : List (String × String)
deriving DecidableEq, Repr

/-- A freshly created `memory` layer: geometry definition, CRS authid, name,
attribute fields, and its feature rows (empty on creation). -/
structure MemLayer where
  geomType : String
  crs : String
  name : String
  fields : List (String × String)
  features : List (List String)
deriving DecidableEq, Repr

/-- Semantics of `re.sub(r"(Z|M|ZM)$", "", disp)`: remove a trailing `ZM`,
else a trailing `Z` or `M`, else leave the text as is. -/
def stripZM (s : List Char) : List Char :=
  match s.reverse with
  | c1 :: c2 :: rest =>
    if c2 = 'Z' ∧ c1 = 'M' then rest.reverse
    else if c1 = 'Z' ∨ c1 = 'M' then (c2 :: rest).reverse
    else s
  | c1 :: rest => if c1 = 'Z' ∨ c1 = 'M' then rest.reverse else s
  | [] => s

/-- `_geom_def_from_template` on the geometry-type display string: strip the
Z/M qualifier; fall back to `"Polygon"` when nothing is left. -/
def _geom_def_from_template (disp : String) : String :=
  let stripped := String.mk (stripZM disp.toList)
  if stripped = "" then "Polygon" else stripped

/-- `_create_memory_layer_from_template`: a new empty memory layer with the
stripped geometry type, the requested CRS, and the template's name and
attribute fields. -/
def _create_memory_layer_from_template (tmpl : TemplateLayer) (crsAuthid : String) : MemLayer :=
  { geomType := _geom_def_from_template tmpl.geomDisplay
    crs := crsAuthid
    name := tmpl.name
    fields := tmpl.fields
    features := [] }

end CreateTemplate

-- concrete evaluations of the executable embedding
example : Recount._compute_missing_numbers {1, 2, 4, 5} = [3] := by decide
example : Recount.updateLokalnyId "1POG-1OUZ" 3 = "1POG-3OUZ" := by decide
example : Recount.updateLokalnyId "NOHYPHEN5" 3 = "NOHYPHEN5" := by decide
example : Recount.updateLokalnyId "-1X" 3 = "-1X" := by decide
example : Recount.collectInfo (some "A4") =
    { raw := "A4", num := some 4, pre := "A", suf := "" } := by decide
example : CreateTemplate._geom_def_from_template "MultiPolygonZ" = "MultiPolygon" := by decide
example : CreateTemplate._geom_def_from_template "PointZM" = "Point" := by decide
example : CreateTemplate._geom_def_from_template "LineStringM" = "LineString" := by decide
example : CreateTemplate._geom_def_from_template "Z" = "Polygon" := by decide

namespace Recount

/-- `Finset.sort (· ≤ ·)` is the unique ascending duplicate-free listing of a
finite set, so it can be evaluated by exhibiting that listing. -/
theorem sort_eq_of_sorted {s : Finset Nat} {l : List Nat} (hs : List.Sorted (· ≤ ·) l)
    (hnd : l.Nodup) (hm : l.toFinset = s) : s.sort (· ≤ ·) = l := by
  refine List.eq_of_perm_of_sorted ?_ (Finset.sort_sorted _ _) hs
  refine Multiset.coe_eq_coe.mp ?_
  rw [Finset.sort_eq]
  have h1 : s.val = (l.toFinset).val := by rw [hm]
  rw [h1, List.toFinset, Multiset.toFinset_val, Multiset.dedup_eq_self.mpr]
  exact Multiset.coe_nodup.mpr hnd

theorem sort_1245 : ({1, 2, 4, 5} : Finset Nat).sort (· ≤ ·) = [1, 2, 4, 5] :=
  sort_eq_of_sorted (by decide) (by decide) (by decide)

/-- Looking up the `i`-th element of a duplicate-free list in the dict built
from its enumeration gives that element's 1-based position. -/
theorem lookup_enumFrom_map :
    ∀ (l : List Nat), l.Nodup → ∀ (k i : Nat) (h : i < l.length),
      (((l.enumFrom k).map fun p => (p.2, p.1 + 1)).lookup (l.get ⟨i, h⟩)) = some (k + i + 1) := by
  intro l
  induction l with
  | nil => intro _ k i h; exact absurd h (Nat.not_lt_zero i)
  | cons a t ih =>
    intro hnd k i h
    obtain ⟨ha, hnd2⟩ := List.nodup_cons.mp hnd
    cases i with
    | zero => simp [List.lookup_cons]
    | succ i =>
      have hit : i < t.length := by simpa using h
      have hne : ((a :: t).get ⟨i + 1, h⟩ == a) = false := by
        rw [List.get_cons_succ]
        exact beq_eq_false_iff_ne.mpr fun he => ha (he ▸ List.get_mem t i hit)
      rw [List.enumFrom_cons, List.map_cons, List.lookup_cons]
      simp only [hne]
      rw [List.get_cons_succ, ih hnd2 (k + 1) i hit]
      congr 1
      omega

/-- On the sorted listing of the set, the reindex mapping assigns
position + 1. -/
theorem reindex_get (S : Finset Nat) (i : Nat) (h : i < (S.sort (· ≤ ·)).length) :
    reindex S ((S.sort (· ≤ ·)).get ⟨i, h⟩) = i + 1 := by
  unfold reindex _build_reindex_mapping
  simp only [List.enum]
  rw [lookup_enumFrom_map (S.sort (· ≤ ·)) (Finset.sort_nodup _ _) 0 i h]
  simp

/-- Every present value is an indexed element of the sorted listing. -/
theorem exists_sort_get {S : Finset Nat} {v : Nat} (hv : v ∈ S) :
    ∃ (i : Nat) (h : i < (S.sort (· ≤ ·)).length), (S.sort (· ≤ ·)).get ⟨i, h⟩ = v := by
  obtain ⟨⟨i, hi⟩, hg⟩ := List.mem_iff_get.mp ((Finset.mem_sort (α := Nat) (· ≤ ·)).mpr hv)
  exact ⟨i, hi, hg⟩

/-- The new number of a present value lies in `1..card`. -/
theorem reindex_mem_Icc {S : Finset Nat} {v : Nat} (hv : v ∈ S) :
    reindex S v ∈ Finset.Icc 1 S.card := by
  obtain ⟨i, hi, hg⟩ := exists_sort_get hv
  have hlen : (S.sort (· ≤ ·)).length = S.card := Finset.length_sort _
  rw [← hg, reindex_get S i hi]
  refine Finset.mem_Icc.mpr ⟨Nat.succ_le_succ (Nat.zero_le i), by omega⟩

/-- Strict monotonicity of the reindex mapping on present values. -/
theorem reindex_lt_reindex {S : Finset Nat} {a b : Nat} (ha : a ∈ S) (hb : b ∈ S)
    (hab : a < b) : reindex S a < reindex S b := by
  obtain ⟨ia, hia, hga⟩ := exists_sort_get ha
  obtain ⟨ib, hib, hgb⟩ := exists_sort_get hb
  have hmono : StrictMono (S.sort (· ≤ ·)).get := (Finset.sort_sorted_lt S).get_strictMono
  have hlt : ia < ib := by
    have hf : (⟨ia, hia⟩ : Fin (S.sort (· ≤ ·)).length) < ⟨ib, hib⟩ :=
      hmono.lt_iff_lt.mp (by rw [hga, hgb]; exact hab)
    exact hf
  rw [← hga, ← hgb, reindex_get S ia hia, reindex_get S ib hib]
  omega

/-- Every value in `1..card` is the new number of some present value. -/
theorem exists_reindex_eq {S : Finset Nat} {n : Nat} (hn : n ∈ Finset.Icc 1 S.card) :
    ∃ v ∈ S, reindex S v = n := by
  obtain ⟨h1, h2⟩ := Finset.mem_Icc.mp hn
  have hlen : (S.sort (· ≤ ·)).length = S.card := Finset.length_sort _
  have hi : n - 1 < (S.sort (· ≤ ·)).length := by omega
  refine ⟨(S.sort (· ≤ ·)).get ⟨n - 1, hi⟩,
    (Finset.mem_sort (α := Nat) (· ≤ ·)).mp (List.get_mem _ _ _), ?_⟩
  rw [reindex_get S (n - 1) hi]
  omega

/-- The image of a set under its own reindex mapping is `1..card`. -/
theorem image_reindex (S : Finset Nat) : S.image (reindex S) = Finset.Icc 1 S.card := by
  ext n
  simp only [Finset.mem_image]
  constructor
  · rintro ⟨v, hv, rfl⟩
    exact reindex_mem_Icc hv
  · intro hn
    exact exists_reindex_eq hn

/-- Gap detection reports nothing on a contiguous range `1..m`. -/
theorem compute_missing_Icc (m : Nat) : _compute_missing_numbers (Finset.Icc 1 m) = [] := by
  cases hmax : (Finset.Icc 1 m).max with
  | bot =>
    unfold _compute_missing_numbers
    rw [hmax]
  | coe e =>
    have he : e ∈ Finset.Icc 1 m := Finset.mem_of_max hmax
    have hem : e ≤ m := (Finset.mem_Icc.mp he).2
    have hrw : _compute_missing_numbers (Finset.Icc 1 m) =
        (List.range' 1 e).filter fun n => decide (n ∉ Finset.Icc 1 m) := by
      unfold _compute_missing_numbers
      rw [hmax]
    rw [hrw, List.filter_eq_nil_iff]
    intro a ha
    have hr := List.mem_range'_1.mp ha
    simp only [decide_eq_true_eq, Decidable.not_not]
    exact Finset.mem_Icc.mpr ⟨hr.1, by omega⟩

/-- C1: for every non-empty set `S` of positive integers (`S.max = some M`
states non-emptiness and names the maximum), `_compute_missing_numbers`
returns exactly `{1..max S} \ S` as a strictly ascending list, the result is
empty iff `S = {1..max S}`, and the empty input set yields the empty list. -/
theorem compute_missing_correct (S : Finset Nat) (M : Nat) (hM : S.max = some M)
    (hpos : ∀ v ∈ S, 0 < v) :
    (_compute_missing_numbers S).toFinset = Finset.Icc 1 M \ S ∧
      List.Sorted (· < ·) (_compute_missing_numbers S) ∧
      (_compute_missing_numbers S = [] ↔ S = Finset.Icc 1 M) ∧
      _compute_missing_numbers ∅ = [] := by
  have hub : ∀ v ∈ S, v ≤ M := by
    intro v hv
    have hle := Finset.le_max hv
    rw [hM] at hle
    exact WithBot.coe_le_coe.mp hle
  have hrw : _compute_missing_numbers S = (List.range' 1 M).filter fun n => decide (n ∉ S) := by
    unfold _compute_missing_numbers
    rw [hM]
  refine ⟨?_, ?_, ⟨?_, ?_⟩, by decide⟩
  · rw [hrw]
    ext x
    simp only [List.mem_toFinset, List.mem_filter, List.mem_range'_1, Finset.mem_sdiff,
      Finset.mem_Icc, decide_eq_true_eq]
    constructor
    · rintro ⟨⟨h1, h2⟩, h3⟩
      exact ⟨⟨h1, by omega⟩, h3⟩
    · rintro ⟨⟨h1, h2⟩, h3⟩
      exact ⟨⟨h1, by omega⟩, h3⟩
  · rw [hrw]
    exact List.Pairwise.filter _ (List.pairwise_lt_range' 1 M)
  · intro hnil
    rw [hrw, List.filter_eq_nil_iff] at hnil
    ext x
    constructor
    · intro hx
      exact Finset.mem_Icc.mpr ⟨hpos x hx, hub x hx⟩
    · intro hx
      obtain ⟨h1, h2⟩ := Finset.mem_Icc.mp hx
      have hr : x ∈ List.range' 1 M := List.mem_range'_1.mpr ⟨h1, by omega⟩
      have := hnil x hr
      simp only [decide_eq_true_eq, Decidable.not_not] at this
      exact this
  · intro hEq
    rw [hrw, List.filter_eq_nil_iff]
    intro a ha
    obtain ⟨h1, h2⟩ := List.mem_range'_1.mp ha
    simp only [decide_eq_true_eq, Decidable.not_not]
    rw [hEq]
    exact Finset.mem_Icc.mpr ⟨h1, by omega⟩

theorem compute_missing_correct_witness :
    (({1, 3} : Finset Nat).max = some 3 ∧ ∀ v ∈ ({1, 3} : Finset Nat), 0 < v) ∧
      ((_compute_missing_numbers {1, 3}).toFinset = Finset.Icc 1 3 \ {1, 3} ∧
        List.Sorted (· < ·) (_compute_missing_numbers {1, 3}) ∧
        (_compute_missing_numbers {1, 3} = [] ↔ ({1, 3} : Finset Nat) = Finset.Icc 1 3) ∧
        _compute_missing_numbers ∅ = []) :=
  ⟨⟨by decide, by decide⟩, compute_missing_correct {1, 3} 3 (by decide) (by decide)⟩

/-- C2: for every non-empty set `S`, `_build_reindex_mapping` is a bijection
from `S` onto `{1..|S|}` and is strictly monotonic on `S`. -/
theorem reindex_bijOn (S : Finset Nat) (h : S.Nonempty) :
    Set.BijOn (reindex S) ↑S ↑(Finset.Icc 1 S.card) ∧
      ∀ a ∈ S, ∀ b ∈ S, a < b → reindex S a < reindex S b := by
  refine ⟨⟨?_, ?_, ?_⟩, fun a ha b hb hab => reindex_lt_reindex ha hb hab⟩
  · intro v hv
    exact Finset.mem_coe.mpr (reindex_mem_Icc (Finset.mem_coe.mp hv))
  · intro a ha b hb he
    rcases Nat.lt_trichotomy a b with hq | hq | hq
    · exact absurd he
        (Nat.ne_of_lt (reindex_lt_reindex (Finset.mem_coe.mp ha) (Finset.mem_coe.mp hb) hq))
    · exact hq
    · exact absurd he.symm
        (Nat.ne_of_lt (reindex_lt_reindex (Finset.mem_coe.mp hb) (Finset.mem_coe.mp ha) hq))
  · intro n hn
    obtain ⟨v, hv, he⟩ := exists_reindex_eq (Finset.mem_coe.mp hn)
    exact ⟨v, Finset.mem_coe.mpr hv, he⟩

theorem reindex_bijOn_witness :
    ({1, 3} : Finset Nat).Nonempty ∧
      (Set.BijOn (reindex {1, 3}) ↑({1, 3} : Finset Nat)
          ↑(Finset.Icc 1 ({1, 3} : Finset Nat).card) ∧
        ∀ a ∈ ({1, 3} : Finset Nat), ∀ b ∈ ({1, 3} : Finset Nat), a < b →
          reindex {1, 3} a < reindex {1, 3} b) :=
  ⟨by decide, reindex_bijOn {1, 3} (by decide)⟩

/-- C3: renumbering followed by re-checking is idempotent: the image of a
non-empty set of positive integers under its reindex mapping has no gaps. -/
theorem reindex_then_recheck_empty (S : Finset Nat) (h : S.Nonempty)
    (hpos : ∀ v ∈ S, 0 < v) :
    _compute_missing_numbers (S.image (reindex S)) = [] := by
  rw [image_reindex]
  exact compute_missing_Icc S.card

theorem reindex_then_recheck_empty_witness :
    (({1, 2, 4, 5} : Finset Nat).Nonempty ∧ ∀ v ∈ ({1, 2, 4, 5} : Finset Nat), 0 < v) ∧
      _compute_missing_numbers (({1, 2, 4, 5} : Finset Nat).image (reindex {1, 2, 4, 5})) = [] :=
  ⟨⟨by decide, by decide⟩, reindex_then_recheck_empty _ (by decide) (by decide)⟩

/-- Elements of a strictly ascending list of values all at least `k` grow at
least as fast as `k + position`. -/
theorem le_get_of_sorted :
    ∀ (l : List Nat), List.Sorted (· < ·) l → ∀ (k : Nat), (∀ x ∈ l, k ≤ x) →
      ∀ (i : Nat) (h : i < l.length), k + i ≤ l.get ⟨i, h⟩ := by
  intro l
  induction l with
  | nil => intro _ k _ i h; exact absurd h (Nat.not_lt_zero i)
  | cons a t ih =>
    intro hs k hk i h
    rw [List.sorted_cons] at hs
    cases i with
    | zero => simpa using hk a (by simp)
    | succ i =>
      have hit : i < t.length := by simpa using h
      rw [List.get_cons_succ]
      have hk2 : ∀ x ∈ t, k + 1 ≤ x := by
        intro x hx
        have h1 := hs.1 x hx
        have h2 := hk a (by simp)
        omega
      have := ih hs.2 (k + 1) hk2 i hit
      omega

/-- C10: renumbering never increases a number: on a set of positive
integers, the 1-based ascending rank of a present value never exceeds the
value itself. -/
theorem reindex_le_self (S : Finset Nat) (v : Nat) (hv : v ∈ S)
    (hpos : ∀ u ∈ S, 0 < u) : reindex S v ≤ v := by
  obtain ⟨i, hi, hg⟩ := exists_sort_get hv
  have h1 : ∀ x ∈ S.sort (· ≤ ·), 1 ≤ x := by
    intro x hx
    exact hpos x ((Finset.mem_sort (α := Nat) (· ≤ ·)).mp hx)
  have hb := le_get_of_sorted (S.sort (· ≤ ·)) (Finset.sort_sorted_lt S) 1 h1 i hi
  rw [← hg, reindex_get S i hi]
  omega

theorem reindex_le_self_witness :
    (5 ∈ ({2, 5} : Finset Nat) ∧ ∀ u ∈ ({2, 5} : Finset Nat), 0 < u) ∧
      reindex {2, 5} 5 ≤ 5 :=
  ⟨⟨by decide, by decide⟩, reindex_le_self {2, 5} 5 (by decide) (by decide)⟩

/-- C4: end-to-end renumbering scenario: designation values
`A1, A2, A4, A5` extract numbers `{1, 2, 4, 5}`, gap detection reports
`[3]`, the reindex mapping is `{1:1, 2:2, 4:3, 5:4}`, and the rewritten
designation values are `A1, A2, A3, A4`. -/
theorem end_to_end_scenario :
    ((_collect_numbers_from_oznaczenie
        [⟨1, some "A1", none⟩, ⟨2, some "A2", none⟩,
          ⟨3, some "A4", none⟩, ⟨4, some "A5", none⟩]).filterMap
        (fun p => p.2.num)).toFinset = {1, 2, 4, 5} ∧
      _compute_missing_numbers {1, 2, 4, 5} = [3] ∧
      _build_reindex_mapping {1, 2, 4, 5} = [(1, 1), (2, 2), (4, 3), (5, 4)] ∧
      (_update_oznaczenie_and_lokalnyId
          [⟨1, some "A1", none⟩, ⟨2, some "A2", none⟩,
            ⟨3, some "A4", none⟩, ⟨4, some "A5", none⟩]
          (_collect_numbers_from_oznaczenie
            [⟨1, some "A1", none⟩, ⟨2, some "A2", none⟩,
              ⟨3, some "A4", none⟩, ⟨4, some "A5", none⟩])
          (_build_reindex_mapping {1, 2, 4, 5})).map Feature.ozn =
        [some "A1", some "A2", some "A3", some "A4"] := by
  have hmap : _build_reindex_mapping {1, 2, 4, 5} = [(1, 1), (2, 2), (4, 3), (5, 4)] := by
    unfold _build_reindex_mapping
    rw [sort_1245]
    decide
  refine ⟨by decide, by decide, hmap, ?_⟩
  rw [hmap]
  decide

end Recount


namespace Recount

/-- `takeWhile` / `dropWhile` split a concatenation whose first part wholly
satisfies the predicate and whose second part starts by refuting it. -/
theorem takeWhile_dropWhile_append {α : Type} (q : α → Bool) :
    ∀ (l₁ l₂ : List α), (∀ a ∈ l₁, q a = true) → (∀ a, l₂.head? = some a → q a = false) →
      (l₁ ++ l₂).takeWhile q = l₁ ∧ (l₁ ++ l₂).dropWhile q = l₂ := by
  intro l₁
  induction l₁ with
  | nil =>
    intro l₂ _ h₂
    cases l₂ with
    | nil => exact ⟨rfl, rfl⟩
    | cons a t =>
      have ha := h₂ a rfl
      exact ⟨by simp [List.takeWhile_cons, ha], by simp [List.dropWhile_cons, ha]⟩
  | cons a t ih =>
    intro l₂ h₁ h₂
    have ha := h₁ a (by simp)
    have iht := ih l₂ (fun x hx => h₁ x (by simp [hx])) h₂
    exact ⟨by simp [List.takeWhile_cons, ha, iht.1], by simp [List.dropWhile_cons, ha, iht.2]⟩

/-- The `lokalnyId` pattern succeeds on a well-shaped decomposition,
yielding the three groups. -/
theorem matchLokalny_eq_some (p d s : List Char)
    (hp : p ≠ []) (hpok : ∀ c ∈ p, lokalnyOk c = true)
    (hd : d ≠ []) (hdig : ∀ c ∈ d, c.isDigit = true)
    (hhead : ∀ c, s.head? = some c → c.isDigit = false)
    (hsn : '\n' ∉ s) :
    matchLokalny (p ++ '-' :: (d ++ s)) = some (p ++ ['-'], d, s) := by
  have hok := takeWhile_dropWhile_append lokalnyOk p ('-' :: (d ++ s)) hpok
    (by intro a ha; have : a = '-' := (Option.some.inj ha).symm; subst this; rfl)
  have hdg := takeWhile_dropWhile_append Char.isDigit d s hdig hhead
  have hcontains : s.contains '\n' = false := by
    refine Bool.eq_false_iff.mpr fun htrue => ?_
    obtain ⟨x, hx, hbeq⟩ := List.contains_iff_exists_mem_beq.mp htrue
    exact hsn ((beq_iff_eq.mp hbeq) ▸ hx)
  unfold matchLokalny
  rw [hok.2]
  simp only [hok.1, hdg.1, hdg.2, hcontains]
  simp [hp, hd]

/-- After `dropWhile q`, no leading element satisfies `q`. -/
theorem takeWhile_dropWhile_self {α : Type} (q : α → Bool) :
    ∀ l : List α, (l.dropWhile q).takeWhile q = [] := by
  intro l
  induction l with
  | nil => rfl
  | cons a t ih =>
    rw [List.dropWhile_cons]
    by_cases hq : q a = true
    · rw [if_pos hq]
      exact ih
    · rw [if_neg hq, List.takeWhile_cons, if_neg hq]

/-- Conversely, a successful match forces a well-shaped decomposition of the
text: a non-empty hyphen/newline-free part, the first hyphen, a non-empty
digit run, and a newline-free remainder not starting with a digit. -/
theorem matchLokalny_some_shape {t : List Char} {g : List Char × List Char × List Char}
    (hm : matchLokalny t = some g) :
    ∃ p d s : List Char, t = p ++ '-' :: (d ++ s) ∧ p ≠ [] ∧
      (∀ c ∈ p, lokalnyOk c = true) ∧ d ≠ [] ∧ (∀ c ∈ d, c.isDigit = true) ∧
      s.takeWhile Char.isDigit = [] ∧ '\n' ∉ s := by
  unfold matchLokalny at hm
  cases hdrop : t.dropWhile lokalnyOk with
  | nil =>
    rw [hdrop] at hm
    exact Option.noConfusion hm
  | cons c rest =>
    rw [hdrop] at hm
    dsimp only at hm
    by_cases hptake : t.takeWhile lokalnyOk = []
    · rw [if_pos hptake] at hm
      exact Option.noConfusion hm
    · rw [if_neg hptake] at hm
      by_cases hc : c ≠ '-'
      · rw [if_pos hc] at hm
        exact Option.noConfusion hm
      · rw [if_neg hc] at hm
        have hceq : c = '-' := Decidable.not_not.mp hc
        by_cases hd : rest.takeWhile Char.isDigit = []
        · rw [if_pos hd] at hm
          exact Option.noConfusion hm
        · rw [if_neg hd] at hm
          by_cases hcon : (rest.dropWhile Char.isDigit).contains '\n' = true
          · rw [if_pos hcon] at hm
            exact Option.noConfusion hm
          · refine ⟨t.takeWhile lokalnyOk, rest.takeWhile Char.isDigit,
              rest.dropWhile Char.isDigit, ?_, hptake, ?_, hd, ?_, ?_, ?_⟩
            · rw [List.takeWhile_append_dropWhile, ← hceq, ← hdrop,
                List.takeWhile_append_dropWhile]
            · intro x hx
              exact List.mem_takeWhile_imp hx
            · intro x hx
              exact List.mem_takeWhile_imp hx
            · exact takeWhile_dropWhile_self Char.isDigit rest
            · intro hmem
              exact hcon (List.contains_iff_exists_mem_beq.mpr ⟨'\n', hmem, by simp⟩)

/-- C5 counterexample: the claim says every text containing a hyphen has the
digit run after the first hyphen replaced, so `"-1X"` with new number `3`
would become `"-3X"`; the source's pattern additionally requires at least
one character before the hyphen and leaves `"-1X"` unchanged. -/
theorem update_lokalny_cex :
    ('-' ∈ "-1X".toList ∧ updateLokalnyId "-1X" 3 = "-1X") ∧ "-1X" ≠ "-3X" := by
  exact ⟨⟨by decide, by decide⟩, by decide⟩

/-- C5 (amended): when the stripped text decomposes as a non-empty run of
characters none of which is a hyphen, newline or carriage return, then the
first hyphen, then a non-empty digit run, then a newline-free remainder not
starting with a digit, the digit run is replaced by the new number with the
parts around it kept; any other text — one admitting no such decomposition,
e.g. with no hyphen, nothing before the first hyphen, or no digit right
after it — is returned completely unchanged. -/
theorem update_lokalny_correct :
    (∀ (lokVal : String) (n : Nat) (p d s : List Char),
      stripChars lokVal.toList = p ++ '-' :: (d ++ s) →
      p ≠ [] → (∀ c ∈ p, lokalnyOk c = true) →
      d ≠ [] → (∀ c ∈ d, c.isDigit = true) →
      s.takeWhile Char.isDigit = [] → '\n' ∉ s →
      updateLokalnyId lokVal n = String.mk (p ++ ['-']) ++ toString n ++ String.mk s) ∧
    ∀ (lokVal : String) (n : Nat),
      (¬ ∃ p d s : List Char,
        stripChars lokVal.toList = p ++ '-' :: (d ++ s) ∧ p ≠ [] ∧
        (∀ c ∈ p, lokalnyOk c = true) ∧ d ≠ [] ∧ (∀ c ∈ d, c.isDigit = true) ∧
        s.takeWhile Char.isDigit = [] ∧ '\n' ∉ s) →
      updateLokalnyId lokVal n = lokVal := by
  constructor
  · intro lokVal n p d s hstrip hp hpok hd hdig hmax hsn
    have hhead : ∀ c, s.head? = some c → c.isDigit = false := by
      intro c hc
      cases s with
      | nil => cases hc
      | cons a t =>
        have hac : a = c := Option.some.inj hc
        subst hac
        rw [List.takeWhile_cons] at hmax
        by_cases hdig2 : a.isDigit = true
        · rw [if_pos hdig2] at hmax
          cases hmax
        · exact Bool.eq_false_iff.mpr hdig2
    unfold updateLokalnyId
    rw [hstrip, matchLokalny_eq_some p d s hp hpok hd hdig hhead hsn]
  · intro lokVal n hns
    cases hm : matchLokalny (stripChars lokVal.toList) with
    | none =>
      unfold updateLokalnyId
      rw [hm]
    | some g =>
      exact absurd (matchLokalny_some_shape hm) hns

theorem update_lokalny_correct_witness :
    ((stripChars "1POG-1OUZ".toList =
        "1POG".toList ++ '-' :: ("1".toList ++ "OUZ".toList) ∧
      "1POG".toList ≠ [] ∧ (∀ c ∈ "1POG".toList, lokalnyOk c = true) ∧
      ("1".toList : List Char) ≠ [] ∧ (∀ c ∈ ("1".toList : List Char), c.isDigit = true) ∧
      "OUZ".toList.takeWhile Char.isDigit = [] ∧ '\n' ∉ "OUZ".toList) ∧
      updateLokalnyId "1POG-1OUZ" 3 =
        String.mk ("1POG".toList ++ ['-']) ++ toString 3 ++ String.mk "OUZ".toList) ∧
      updateLokalnyId "NOHYPHEN5" 3 = "NOHYPHEN5" :=
  ⟨⟨⟨by decide, by decide, by decide, by decide, by decide, by decide, by decide⟩,
    update_lokalny_correct.1 "1POG-1OUZ" 3 "1POG".toList "1".toList "OUZ".toList
      (by decide) (by decide) (by decide) (by decide) (by decide) (by decide) (by decide)⟩,
    update_lokalny_correct.2 "NOHYPHEN5" 3 (by
      rintro ⟨p, d, s, heq, -, -, -, -, -, -⟩
      have hmem : '-' ∈ stripChars "NOHYPHEN5".toList := by
        rw [heq]
        exact List.mem_append_right p (List.mem_cons_self '-' (d ++ s))
      exact absurd hmem (by decide))⟩

end Recount

namespace Recount

/-- C6: the rewritten designation value is the extracted part before the
digits, then the decimal rendering of the new number (no padding), then the
part after the digits; in particular the record `("A-", 7, "B")` rewritten
with new number `3` yields `"A-3B"`. -/
theorem rewrite_oznaczenie_correct :
    (∀ (info : OznInfo) (n : Nat),
      rewriteOznaczenie info n = info.pre ++ Nat.repr n ++ info.suf) ∧
      rewriteOznaczenie { raw := "A-7B", num := some 7, pre := "A-", suf := "B" } 3 = "A-3B" :=
  ⟨fun _ _ => rfl, by decide⟩

/-- Looking up a feature's id in a dict built by mapping over a feature list
with duplicate-free keys returns that feature's value. -/
theorem lookup_map_pair {β : Type} (key : Feature → Nat) (val : Feature → β) :
    ∀ (feats : List Feature), (feats.map key).Nodup → ∀ f ∈ feats,
      ((feats.map fun g => (key g, val g)).lookup (key f)) = some (val f) := by
  intro feats
  induction feats with
  | nil => intro _ f hf; cases hf
  | cons g t ih =>
    intro hnd f hf
    rw [List.map_cons] at hnd
    obtain ⟨hg, hnd2⟩ := List.nodup_cons.mp hnd
    rw [List.map_cons, List.lookup_cons]
    rcases List.mem_cons.mp hf with rfl | hmem
    · simp
    · have hfid : (key f == key g) = false :=
        beq_eq_false_iff_ne.mpr fun he => hg (he ▸ List.mem_map_of_mem key hmem)
      simp only [hfid]
      exact ih hnd2 f hmem

/-- C7: the field rewriter only touches features whose extracted numeric
value is a key of the mapping: a feature whose designation yields no number,
or whose number is not in the mapping, appears unchanged in the output. -/
theorem update_skips_unmapped (feats : List Feature) (mapping : List (Nat × Nat))
    (hnd : (feats.map Feature.fid).Nodup) (i : Nat) (hi : i < feats.length)
    (hskip : ∀ k, (collectInfo (feats.get ⟨i, hi⟩).ozn).num = some k →
      mapping.lookup k = none) :
    (_update_oznaczenie_and_lokalnyId feats
        (_collect_numbers_from_oznaczenie feats) mapping)[i]? =
      some (feats.get ⟨i, hi⟩) := by
  have hmem : feats.get ⟨i, hi⟩ ∈ feats := List.get_mem feats i hi
  have hl := lookup_map_pair Feature.fid (fun g => collectInfo g.ozn) feats hnd _ hmem
  unfold _update_oznaczenie_and_lokalnyId _collect_numbers_from_oznaczenie
  rw [List.getElem?_map, List.getElem?_eq_getElem hi]
  simp only [Option.map_some', List.get_eq_getElem] at hl ⊢
  rw [hl]
  cases hnum : (collectInfo feats[i].ozn).num with
  | none => simp [updateFeature, hnum]
  | some k =>
    have hlk := hskip k (by simpa using hnum)
    simp [updateFeature, hnum, hlk]

theorem update_skips_unmapped_witness :
    (([⟨1, some "A5", none⟩] : List Feature).map Feature.fid).Nodup ∧ 0 < 1 ∧
      (_update_oznaczenie_and_lokalnyId [⟨1, some "A5", none⟩]
          (_collect_numbers_from_oznaczenie [⟨1, some "A5", none⟩]) [])[0]? =
        some (([⟨1, some "A5", none⟩] : List Feature).get ⟨0, by decide⟩) :=
  ⟨by decide, by decide,
    update_skips_unmapped [⟨1, some "A5", none⟩] [] (by decide) 0 (by decide)
      (fun _ _ => rfl)⟩

/-- C8: when the layer lacks the `oznaczenie` field, or lacks both
`lokalnyId` and `loklaneId`, `run` aborts with a warning outcome at the
field check and the layer's features are untouched. -/
theorem run_aborts_on_missing_fields (layer : Layer) (confirm : Bool)
    (hmiss : "oznaczenie" ∉ layer.fields ∨
      ("lokalnyId" ∉ layer.fields ∧ "loklaneId" ∉ layer.fields)) :
    run layer confirm = RunOutcome.missingOznaczenie layer.features ∨
      run layer confirm = RunOutcome.missingLokalny layer.features := by
  by_cases hozn : "oznaczenie" ∈ layer.fields
  · rcases hmiss with hmiss | ⟨h1, h2⟩
    · exact absurd hozn hmiss
    · right
      unfold run _find_lokalny_field
      rw [if_pos hozn, if_neg h1, if_neg h2]
  · left
    unfold run
    rw [if_neg hozn]

theorem run_aborts_on_missing_fields_witness :
    ("oznaczenie" ∉ (Layer.mk ["foo"] []).fields ∨
      ("lokalnyId" ∉ (Layer.mk ["foo"] []).fields ∧
        "loklaneId" ∉ (Layer.mk ["foo"] []).fields)) ∧
      (run (Layer.mk ["foo"] []) true =
          RunOutcome.missingOznaczenie (Layer.mk ["foo"] []).features ∨
        run (Layer.mk ["foo"] []) true =
          RunOutcome.missingLokalny (Layer.mk ["foo"] []).features) :=
  ⟨Or.inl (by decide), run_aborts_on_missing_fields (Layer.mk ["foo"] []) true
    (Or.inl (by decide))⟩

end Recount

namespace CreateTemplate

/-- C9: template materialization strips a trailing `ZM`, `Z` or `M`
qualifier from the geometry-type display string before creating the new
layer, and the created memory layer carries the template's attribute fields
with zero features; in particular a `MultiPolygonZ` template with fields
name/area yields an empty `MultiPolygon` layer with the same two fields. -/
theorem template_materialization :
    (∀ b : List Char, stripZM (b ++ ['Z', 'M']) = b) ∧
      (∀ b : List Char, stripZM (b ++ ['Z']) = b) ∧
      (∀ b : List Char, b.getLast? ≠ some 'Z' → stripZM (b ++ ['M']) = b) ∧
      _create_memory_layer_from_template
          { geomDisplay := "MultiPolygonZ", name := "szablon",
            fields := [("name", "text"), ("area", "real")] } "EPSG:2177" =
        { geomType := "MultiPolygon", crs := "EPSG:2177", name := "szablon",
          fields := [("name", "text"), ("area", "real")], features := [] } ∧
      ∀ (tmpl : TemplateLayer) (crs : String),
        (_create_memory_layer_from_template tmpl crs).fields = tmpl.fields ∧
          (_create_memory_layer_from_template tmpl crs).features = [] := by
  refine ⟨?_, ?_, ?_, by decide, fun tmpl crs => ⟨rfl, rfl⟩⟩
  · intro b
    have h2 : (b ++ ['Z', 'M']).reverse = 'M' :: 'Z' :: b.reverse := by
      rw [List.reverse_append]
      rfl
    unfold stripZM
    rw [h2]
    dsimp only
    rw [if_pos ⟨rfl, rfl⟩, List.reverse_reverse]
  · intro b
    cases hb : b.reverse with
    | nil =>
      have hbnil : b = [] := List.reverse_eq_nil_iff.mp hb
      subst hbnil
      decide
    | cons c2 rest =>
      have h2 : (b ++ ['Z']).reverse = 'Z' :: c2 :: rest := by
        rw [List.reverse_append, hb]
        rfl
      unfold stripZM
      rw [h2]
      dsimp only
      rw [if_neg (fun hc => by exact absurd hc.2 (by decide)),
        if_pos (Or.inl rfl), ← hb, List.reverse_reverse]
  · intro b hlast
    cases hb : b.reverse with
    | nil =>
      have hbnil : b = [] := List.reverse_eq_nil_iff.mp hb
      subst hbnil
      decide
    | cons c2 rest =>
      have hc2 : b.getLast? = some c2 := by
        rw [← List.head?_reverse, hb]
        rfl
      have hc2ne : c2 ≠ 'Z' := fun he => hlast (he ▸ hc2)
      have h2 : (b ++ ['M']).reverse = 'M' :: c2 :: rest := by
        rw [List.reverse_append, hb]
        rfl
      unfold stripZM
      rw [h2]
      dsimp only
      rw [if_neg (fun hc => hc2ne hc.1), if_pos (Or.inr rfl), ← hb,
        List.reverse_reverse]

theorem template_materialization_witness :
    "LineString".toList.getLast? ≠ some 'Z' ∧
      stripZM ("LineString".toList ++ ['M']) = "LineString".toList :=
  ⟨by decide, template_materialization.2.2.1 "LineString".toList (by decide)⟩

end CreateTemplate
